import Mathlib

/-!
# underblog: the build pipeline of `app/cmd/blog.go`

A shallow embedding of the discovery step (`getMdFiles`, `isFileValid`,
`getCat`), of the aggregate store (`addPost`), of the output paths
(`getIndexPage`, `renderCat`) and of the dispatcher / worker protocol
(`createPosts`, `startWorker`, `renderMd`), followed by the properties
established about them.

Go strings are Lean `String`s; functions that inspect the bytes of a string
work on its character list.  A Go `map[string][]T` is an association list
with pairwise distinct keys in insertion order; reading an absent key gives
the nil slice, as in Go.  The iteration order of a Go map is unspecified, so
wherever the source ranges over a map the model takes the order as an
explicit permutation of the entries.
-/

namespace Underblog

/-! ## Go maps with slice values -/

/-- A Go `map[string][]α`: key/value pairs, keys pairwise distinct. -/
abbrev GoMap (α : Type) := List (String × List α)

/-- The Go expression `m[k]`: the stored slice, or nil when `k` is absent. -/
def mapGet {α : Type} : GoMap α → String → List α
  | [], _ => []
  | (k', v) :: m, k => if k' = k then v else mapGet m k

/-- The Go statement `m[k] = v`: overwrite the entry of `k`, or create it. -/
def mapSet {α : Type} : GoMap α → String → List α → GoMap α
  | [], k, v => [(k, v)]
  | (k', v') :: m, k, v => if k' = k then (k', v) :: m else (k', v') :: mapSet m k v

/-- The keys of a map; `len(m)` is the length of this list. -/
def mapKeys {α : Type} (m : GoMap α) : List String := m.map Prod.fst

/-! ## Posts and the aggregate store -/

/-- Modelled from the spec: the `Post` type is declared in a file outside src/;
the spec gives it an identifying name, a rendered body and the category names
it belongs to, and `addPost` reads its field `Cats`. -/
structure Post where
  Title : String
  Body : String
  Cats : List String
deriving DecidableEq, Repr

/-- Modelled from the spec: `NewPost(key, cats)` is defined outside src/; it
builds the post of source file `key` with the discovered category list
`cats`.  The name derived from the file name and the rendered body come from
the file system and the markdown converter, taken here as the functions
`title` and `body`. -/
def NewPost (title body : String → String) (key : String) (cats : List String) : Post :=
  { Title := title key, Body := body key, Cats := cats }

/-- The fields of `Blog` that hold the aggregate store. -/
structure Blog where
  posts : List Post
  categories : GoMap Post
deriving DecidableEq, Repr

/-- The store of `NewBlog`: no posts, an empty categories map. -/
def NewBlog : Blog := { posts := [], categories := [] }

/-- The loop body of `addPost`: `b.categories[c] = append(b.categories[c], post)`. -/
def addCat (post : Post) (cats : GoMap Post) (c : String) : GoMap Post :=
  mapSet cats c (mapGet cats c ++ [post])

/-- `Blog.addPost`, the critical section between `Lock` and `Unlock`. -/
def addPost (b : Blog) (post : Post) : Blog :=
  { posts := b.posts ++ [post]
    categories := post.Cats.foldl (addCat post) b.categories }

/-- A sequence of `addPost` calls, in the given order. -/
def addPosts (b : Blog) (ps : List Post) : Blog := ps.foldl addPost b

/-! ## Discovery: `isFileValid`, `getCat`, `getMdFiles` -/

/-- The value of `os.PathSeparator` on the platforms the blog is built on. -/
def PathSeparator : Char := '/'

/-- The loop of Go's `path.Ext`, over the bytes of the path from the last one
backwards: stop with "" at a slash, return the suffix at the first dot met.
The second argument is the part of the path already passed. -/
def extScan : List Char → List Char → List Char
  | [], _ => []
  | c :: rest, acc =>
    if c = '/' then [] else if c = '.' then c :: acc else extScan rest (c :: acc)

/-- Go's `path.Ext`. -/
def pathExt (p : String) : String := String.mk (extScan p.data.reverse [])

/-- `isFileValid`, as a function of `file.Name()`. -/
def isFileValid (name : String) : Bool :=
  pathExt name == ".md" || pathExt name == ".markdown"

/-- Go's `strings.Split(s, sep)` for a one-byte separator, on byte lists. -/
def splitOn (sep : Char) : List Char → List (List Char)
  | [] => [[]]
  | c :: cs =>
    if c = sep then [] :: splitOn sep cs
    else
      match splitOn sep cs with
      | [] => [[c]]
      | h :: t => (c :: h) :: t

/-- `strings.Split(path, string(os.PathSeparator))`. -/
def stringsSplit (path : String) : List String :=
  (splitOn PathSeparator path.data).map String.mk

/-- `getCat`. -/
def getCat (path : String) : String :=
  let s := stringsSplit path
  if s.length > 2 then s.getD 1 "" else ""

/-- One call of the walk callback: the `path` argument and `info.Name()`.
A walk that reports an error ends the process before any map is returned, so
the entries are those of a walk without error. -/
structure Entry where
  path : String
  name : String
deriving DecidableEq, Repr

/-- The callback that `getMdFiles` hands to `filepath.Walk`, as a step on the
pair `(files, cats)`. -/
def walkFn (st : GoMap String × GoMap String) (e : Entry) : GoMap String × GoMap String :=
  if isFileValid e.name then
    if getCat e.path ≠ "" then
      (mapSet st.1 e.name (mapGet st.1 e.name ++ [getCat e.path]),
       mapSet st.2 (getCat e.path) (mapGet st.2 (getCat e.path) ++ [e.name]))
    else
      (mapSet st.1 e.name [], st.2)
  else st

/-- `getMdFiles`: the maps `(files, cats)` built over the walked entries. -/
def getMdFiles (entries : List Entry) : GoMap String × GoMap String :=
  entries.foldl walkFn ([], [])

/-- The walked entries that `isFileValid` accepts. -/
def validEntries (entries : List Entry) : List Entry :=
  entries.filter (fun e => isFileValid e.name)

/-- The suffix of a name starting at its last dot, if it has a dot. -/
def lastDotSuffix? : List Char → Option (List Char)
  | [] => none
  | c :: cs =>
    match lastDotSuffix? cs with
    | some s => some s
    | none => if c = '.' then some (c :: cs) else none

/-- The extension of a name in the words of the specification: the suffix
starting at the last dot of the name, empty when the name has no dot. -/
def lastDotSuffix (name : String) : String :=
  String.mk ((lastDotSuffix? name.data).getD [])

/-- A path built from its segments, joined by the separator. -/
def joinSegs : List (List Char) → List Char
  | [] => []
  | [s] => s
  | s :: t :: r => s ++ PathSeparator :: joinSegs (t :: r)

/-! ## Phase 1 of `createPosts` -/

/-- The struct `Pair` sent on the channel `b.files`. -/
structure Pair where
  key : String
  val : List String
deriving DecidableEq, Repr

/-- The jobs `Pair{key, val}` of a range over the map `files`. -/
def pairsOf (files : GoMap String) : List Pair := files.map (fun kv => Pair.mk kv.1 kv.2)

/-- The parse job of a worker: `b.addPost(NewPost(f.key, f.val))`. -/
def parseJob (title body : String → String) (b : Blog) (f : Pair) : Blog :=
  addPost b (NewPost title body f.key f.val)

/-- The store after phase 1.  `addPost` runs under the mutex, so the parse jobs
take effect one after the other, in the order `done` in which the workers
reach the critical section; `done` is some ordering of the jobs. -/
def parsePhase (title body : String → String) (done : List Pair) : Blog :=
  done.foldl (parseJob title body) NewBlog

/-! ## Output paths: `getIndexPage`, `renderCat` -/

/-- One element of the path that Go's `filepath.Clean` rewrites, applied to
the elements kept so far (last one first): empty and `.` elements are
dropped, `..` removes the element before it, or stays when there is none to
remove and the path is not rooted. -/
def cleanStep (rooted : Bool) (out : List (List Char)) (seg : List Char) : List (List Char) :=
  if seg = [] ∨ seg = ['.'] then out
  else if seg = ['.', '.'] then
    match out with
    | [] => if rooted then [] else [seg]
    | top :: rest => if top = ['.', '.'] then seg :: out else rest
  else seg :: out

/-- Go's `filepath.Clean` on a slash-separated path, element by element. -/
def filepathClean (path : List Char) : List Char :=
  match path with
  | [] => ['.']
  | c :: _ =>
    let rooted := decide (c = PathSeparator)
    let out := ((splitOn PathSeparator path).foldl (cleanStep rooted) []).reverse
    if rooted then PathSeparator :: joinSegs out
    else if out = [] then ['.'] else joinSegs out

/-- Go's `filepath.Join`: the elements from the first non-empty one on, joined
by the separator and cleaned; "" when every element is empty. -/
def filepathJoin (elem : List String) : String :=
  match elem.dropWhile (fun e => e = "") with
  | [] => ""
  | es => String.mk (filepathClean (joinSegs (es.map String.data)))

/-- What `getIndexPage` asks of the file system: the directory given to
`os.MkdirAll` and the file given to `os.Create`. -/
structure IndexPage where
  dir : String
  file : String
deriving DecidableEq, Repr

/-- `getIndexPage(currentPath)`, with `currentPath` the option `opts.Path`. -/
def getIndexPage (currentPath : String) : IndexPage :=
  let rootPath := if currentPath ≠ "" then currentPath else "."
  { dir := filepathJoin [rootPath, "public"], file := "public/index.html" }

/-- The directory `renderCat(cat)` gives to `os.MkdirAll`. -/
def renderCatDir (cat : String) : String := filepathJoin ["public/cats", cat]

/-- The file `renderCat(cat)` gives to `os.Create`. -/
def renderCatFile (cat : String) : String := "public/cats/" ++ cat ++ "/index.html"

/-! ## The dispatcher and the workers -/

/-- Where a worker goroutine of `startWorker` stands.  The context is
`context.Background()` and neither `b.files` nor `b.catCh` is ever closed, so
a worker only leaves its `select` with a job. -/
inductive Worker where
  /-- Waiting in the `select`. -/
  | idle
  /-- Received `f` from `b.files`; `b.addPost(NewPost(f.key, f.val))` is next. -/
  | gotFile (f : Pair)
  /-- The post is in the store; `b.wg.Done()` is next. -/
  | added
  /-- Received `c` from `b.catCh`; `b.renderCat(c)` is next. -/
  | gotCat (c : String)
  /-- The category page is written; `b.wg.Done()` is next. -/
  | rendered
deriving DecidableEq, Repr

/-- The worker holds a parse job that is not finished. -/
def Worker.parsing : Worker → Bool
  | .gotFile _ => true
  | .added => true
  | _ => false

/-- The worker holds a parse job whose post is not in the store yet. -/
def Worker.job? : Worker → Option Pair
  | .gotFile f => some f
  | _ => none

/-- The worker holds a category job that is not finished. -/
def Worker.rendering : Worker → Bool
  | .gotCat _ => true
  | .rendered => true
  | _ => false

/-- Where the dispatcher (`createPosts`, then `renderMd`) stands. -/
inductive Pc where
  /-- In the loop `b.files <- Pair{key, val}` with `rest` still to send; with
  nothing left to send, at the first `b.wg.Wait()`. -/
  | sendFiles (rest : List Pair)
  /-- Past the first `b.wg.Wait()`, before `b.wg.Add(len(cats))`. -/
  | armCats
  /-- In the loop `b.catCh <- key` with `rest` still to send; with nothing
  left to send, about to return from `createPosts`. -/
  | sendCats (rest : List String)
  /-- In `renderMd`, at `b.wg.Wait()`. -/
  | renderWait
  /-- In `renderMd`, before `t.Execute(b.indexPage, b.posts)`. -/
  | renderExec
  /-- The root index is written. -/
  | finished
deriving DecidableEq, Repr

/-- The state shared by the dispatcher and the workers. -/
structure Run where
  pc : Pc
  workers : List Worker
  /-- The counter of the WaitGroup `b.wg`. -/
  wg : Int
  store : Blog
  /-- The category pages written so far: the category and the posts that
  `renderCat` handed to the template. -/
  pages : List (String × List Post)
  /-- The posts that `renderMd` handed to the template, once it has. -/
  index : Option (List Post)
deriving DecidableEq, Repr

/-- The moves of the scheduler. -/
inductive Action where
  /-- The dispatcher's pending send meets the `select` of worker `i`. -/
  | recv (i : Nat)
  /-- Worker `i` runs its next statement. -/
  | work (i : Nat)
  /-- The dispatcher runs its next statement other than a send. -/
  | main
deriving DecidableEq, Repr

/-- The state of `createPosts` once `b.wg.Add(len(files))` has run and the
`wLimit` workers are started; `jobs` is the order in which the range over
`files` yields the parse jobs. -/
def initRun (wLimit : Nat) (jobs : List Pair) : Run :=
  { pc := .sendFiles jobs, workers := List.replicate wLimit .idle, wg := jobs.length,
    store := NewBlog, pages := [], index := none }

/-- One move; `none` when the move is not possible in this state (the thread
is blocked, or has nothing to run).  The channels are unbuffered, so a send
and its receive are one move; `addPost` runs under the mutex, so it is one
move.  `wg.Done` subtracts one from the counter and `wg.Wait` passes when the
counter is zero.  A job that fails ends the process (`log.Fatal`), after
which there is no move.  `catOrder` is the order in which the range over
`cats` yields the categories. -/
def step (title body : String → String) (catOrder : List String) (s : Run) :
    Action → Option Run
  | .recv i =>
    match s.workers[i]?, s.pc with
    | some .idle, .sendFiles (f :: rest) =>
      some { s with pc := .sendFiles rest, workers := s.workers.set i (.gotFile f) }
    | some .idle, .sendCats (c :: rest) =>
      some { s with pc := .sendCats rest, workers := s.workers.set i (.gotCat c) }
    | _, _ => none
  | .work i =>
    match s.workers[i]? with
    | some (.gotFile f) =>
      some { s with store := parseJob title body s.store f, workers := s.workers.set i .added }
    | some .added =>
      some { s with wg := s.wg - 1, workers := s.workers.set i .idle }
    | some (.gotCat c) =>
      some { s with pages := s.pages ++ [(c, mapGet s.store.categories c)],
                    workers := s.workers.set i .rendered }
    | some .rendered =>
      some { s with wg := s.wg - 1, workers := s.workers.set i .idle }
    | _ => none
  | .main =>
    match s.pc with
    | .sendFiles [] => if s.wg = 0 then some { s with pc := .armCats } else none
    | .armCats => some { s with wg := s.wg + catOrder.length, pc := .sendCats catOrder }
    | .sendCats [] => some { s with pc := .renderWait }
    | .renderWait => if s.wg = 0 then some { s with pc := .renderExec } else none
    | .renderExec => some { s with index := some s.store.posts, pc := .finished }
    | _ => none

/-- A schedule run from a state: the moves in turn, `none` if one of them is
not possible. -/
def exec (title body : String → String) (catOrder : List String) :
    Run → List Action → Option Run
  | s, [] => some s
  | s, a :: acts =>
    match step title body catOrder s a with
    | some s' => exec title body catOrder s' acts
    | none => none

/-- The parse jobs not sent yet. -/
def Run.unsent (s : Run) : List Pair :=
  match s.pc with
  | .sendFiles rest => rest
  | _ => []

/-- The dispatcher has not passed the first `b.wg.Wait()`. -/
def Run.phase1 (s : Run) : Bool :=
  match s.pc with
  | .sendFiles _ => true
  | _ => false

/-- The number of parse jobs that are not finished: not sent yet, or held by
a worker that has not called `wg.Done` for it. -/
def Run.unfinished (s : Run) : Nat :=
  s.unsent.length + s.workers.countP Worker.parsing

/-- A render has begun or is due: a worker holds a category job, a category
page is written, or the dispatcher is at or past the `Execute` of the root
index. -/
def Run.rendering (s : Run) : Bool :=
  s.workers.any Worker.rendering || !s.pages.isEmpty || s.index.isSome ||
    decide (s.pc = .renderExec) || decide (s.pc = .finished)

/-- The parse jobs that workers hold and have not put in the store yet. -/
def inflight (ws : List Worker) : List Pair := ws.filterMap Worker.job?

/-- The store is the outcome of parse jobs taking effect one after the other,
and those jobs, the ones workers hold and the ones not sent yet are together
the jobs of the run. -/
def StoreInv (title body : String → String) (jobs : List Pair) (s : Run) : Prop :=
  ∃ done : List Pair, s.store = parsePhase title body done ∧
    (done ++ (inflight s.workers ++ s.unsent)).Perm jobs

/-- Every category page written shows the list the store holds for it. -/
def PagesOk (s : Run) : Prop :=
  ∀ pg ∈ s.pages, pg.2 = mapGet s.store.categories pg.1

/-- What holds of the counter and the workers at each place of the
dispatcher: in phase 1 the counter is the number of unfinished parse jobs and
no worker holds a category job; past the first `Wait` no worker holds a parse
job, and the counter is the number of unfinished category jobs. -/
def CountInv (s : Run) : Prop :=
  match s.pc with
  | .sendFiles rest =>
    s.wg = ((rest.length + s.workers.countP Worker.parsing : Nat) : Int) ∧
    s.workers.countP Worker.rendering = 0
  | .armCats =>
    s.wg = 0 ∧ s.workers.countP Worker.parsing = 0 ∧ s.workers.countP Worker.rendering = 0
  | .sendCats rest =>
    s.wg = ((rest.length + s.workers.countP Worker.rendering : Nat) : Int) ∧
    s.workers.countP Worker.parsing = 0
  | .renderWait =>
    s.wg = ((s.workers.countP Worker.rendering : Nat) : Int) ∧
    s.workers.countP Worker.parsing = 0
  | .renderExec =>
    s.wg = 0 ∧ s.workers.countP Worker.parsing = 0 ∧ s.workers.countP Worker.rendering = 0
  | .finished =>
    s.wg = 0 ∧ s.workers.countP Worker.parsing = 0 ∧ s.workers.countP Worker.rendering = 0

/-- What holds of the output: nothing is written in phase 1, every page
written shows the store, and the index is written at the end only. -/
def OutInv (s : Run) : Prop :=
  (s.phase1 = true → s.pages = [] ∧ s.index = none) ∧ PagesOk s ∧
  (∀ ps, s.index = some ps → ps = s.store.posts ∧ s.pc = .finished)

/-- The schedule in which the first worker takes `n` jobs in turn: it
receives the job, runs it and calls `wg.Done`. -/
def oneWorker : Nat → List Action
  | 0 => []
  | n + 1 => .recv 0 :: .work 0 :: .work 0 :: oneWorker n

/-- A schedule that runs the whole pipeline on the first worker. -/
def sequential (nFiles nCats : Nat) : List Action :=
  oneWorker nFiles ++ (.main :: .main :: (oneWorker nCats ++ [.main, .main, .main]))

/-! ## Lemmas on maps -/

theorem mapGet_mapSet {α : Type} (m : GoMap α) (k k' : String) (v : List α) :
    mapGet (mapSet m k v) k' = if k = k' then v else mapGet m k' := by
  induction m with
  | nil => simp [mapSet, mapGet]
  | cons e m ih =>
    obtain ⟨a, w⟩ := e
    by_cases h : a = k
    · subst h
      by_cases h' : a = k' <;> simp [mapSet, mapGet, h']
    · by_cases h' : a = k'
      · subst h'
        have : ¬ k = a := fun e => h e.symm
        simp [mapSet, mapGet, h, this]
      · simp [mapSet, mapGet, h, h', ih]

theorem mapKeys_mapSet {α : Type} (m : GoMap α) (k : String) (v : List α) :
    mapKeys (mapSet m k v) = if k ∈ mapKeys m then mapKeys m else mapKeys m ++ [k] := by
  induction m with
  | nil => simp [mapSet, mapKeys]
  | cons e m ih =>
    obtain ⟨a, w⟩ := e
    by_cases h : a = k
    · subst h
      simp [mapSet, mapKeys]
    · have h' : ¬ k = a := fun e => h e.symm
      simp only [mapKeys] at ih
      by_cases hk : k ∈ List.map Prod.fst m
      · simp [mapSet, mapKeys, h, h', hk, ih]
      · simp [mapSet, mapKeys, h, h', hk, ih]

/-! ## Lemmas on the store -/

theorem mapGet_foldl_addCat (post : Post) (cs : List String) (m : GoMap Post) (c : String) :
    mapGet (cs.foldl (addCat post) m) c = mapGet m c ++ List.replicate (cs.count c) post := by
  induction cs generalizing m with
  | nil => simp
  | cons d cs ih =>
    rw [List.foldl_cons, ih, addCat, mapGet_mapSet]
    by_cases h : d = c
    · subst h
      simp [List.replicate_succ]
    · have h' : ¬ (d == c) = true := by simpa using h
      simp [h, List.count_cons, h']

theorem addPosts_posts (b : Blog) (ps : List Post) :
    (addPosts b ps).posts = b.posts ++ ps := by
  induction ps generalizing b with
  | nil => simp [addPosts]
  | cons p ps ih =>
    have := ih (addPost b p)
    simp only [addPosts, List.foldl_cons] at this ⊢
    rw [this]
    simp [addPost]

theorem addPosts_categories (b : Blog) (ps : List Post) (c : String) :
    mapGet (addPosts b ps).categories c
      = mapGet b.categories c ++ ps.flatMap (fun p => List.replicate (p.Cats.count c) p) := by
  induction ps generalizing b with
  | nil => simp [addPosts]
  | cons p ps ih =>
    have := ih (addPost b p)
    simp only [addPosts, List.foldl_cons] at this ⊢
    rw [this]
    simp [addPost, mapGet_foldl_addCat, List.flatMap_cons]

/-! ## The aggregate store: `addPost` -/

/-- C1: `addPost` appends the post to the posts list, and sends every category
`c` to its old list followed by one copy of the post per occurrence of `c` in
the post's `Cats`; the list of a category not in `Cats` is unchanged. -/
theorem addPost_spec (b : Blog) (p : Post) :
    (addPost b p).posts = b.posts ++ [p] ∧
    (∀ c : String, mapGet (addPost b p).categories c
        = mapGet b.categories c ++ List.replicate (p.Cats.count c) p) ∧
    (∀ c : String, c ∉ p.Cats →
        mapGet (addPost b p).categories c = mapGet b.categories c) := by
  refine ⟨rfl, fun c => mapGet_foldl_addCat p p.Cats b.categories c, fun c hc => ?_⟩
  have := mapGet_foldl_addCat p p.Cats b.categories c
  simp only [addPost]
  rw [this, List.count_eq_zero_of_not_mem hc]
  simp

/-- C3: after any sequence of `addPost` calls on the empty store, the posts in
`categories[c]` (the collection `renderCat(c)` hands to the template) are
exactly the added posts whose `Cats` contains `c`. -/
theorem category_posts_exact (ps : List Post) (c : String) (p : Post) :
    p ∈ mapGet (addPosts NewBlog ps).categories c ↔ (p ∈ ps ∧ c ∈ p.Cats) := by
  rw [addPosts_categories]
  simp only [NewBlog, mapGet, List.nil_append, List.mem_flatMap]
  constructor
  · rintro ⟨q, hq, hp⟩
    have hpq : p = q := List.eq_of_mem_replicate hp
    subst hpq
    refine ⟨hq, ?_⟩
    by_contra hc
    rw [List.count_eq_zero_of_not_mem hc] at hp
    simp at hp
  · rintro ⟨hp, hc⟩
    refine ⟨p, hp, ?_⟩
    rw [List.mem_replicate]
    exact ⟨(List.count_pos_iff.mpr hc).ne', rfl⟩

/-- C7: for pairwise distinct posts added in any order, every post is exactly
once in the posts list and is in the list of each of its categories; two
orders give posts lists and category lists that are permutations of each
other. -/
theorem addPosts_any_order (ps order₁ order₂ : List Post) (hnd : ps.Nodup)
    (h₁ : order₁.Perm ps) (h₂ : order₂.Perm ps) :
    (∀ p ∈ ps, (addPosts NewBlog order₁).posts.count p = 1 ∧
        ∀ c ∈ p.Cats, p ∈ mapGet (addPosts NewBlog order₁).categories c) ∧
    (addPosts NewBlog order₁).posts.Perm (addPosts NewBlog order₂).posts ∧
    ∀ c : String, (mapGet (addPosts NewBlog order₁).categories c).Perm
        (mapGet (addPosts NewBlog order₂).categories c) := by
  have h₁₂ : order₁.Perm order₂ := h₁.trans h₂.symm
  refine ⟨fun p hp => ⟨?_, fun c hc => ?_⟩, ?_, fun c => ?_⟩
  · rw [addPosts_posts]
    simp only [NewBlog, List.nil_append]
    rw [h₁.count_eq]
    exact List.count_eq_one_of_mem hnd hp
  · rw [addPosts_categories]
    simp only [NewBlog, mapGet, List.nil_append, List.mem_flatMap]
    refine ⟨p, h₁.symm.subset hp, ?_⟩
    rw [List.mem_replicate]
    exact ⟨(List.count_pos_iff.mpr hc).ne', rfl⟩
  · rw [addPosts_posts, addPosts_posts]
    simpa [NewBlog] using h₁₂
  · rw [addPosts_categories, addPosts_categories]
    simp only [NewBlog, mapGet, List.nil_append]
    exact h₁₂.flatMap_right _

/-- The theorem `addPosts_any_order` at two posts added in both orders. -/
theorem addPosts_any_order_witness :
    ([Post.mk "p1" "" ["a"], Post.mk "p2" "" ["a", "b"]] : List Post).Nodup ∧
    (∀ p ∈ [Post.mk "p1" "" ["a"], Post.mk "p2" "" ["a", "b"]],
        (addPosts NewBlog [Post.mk "p2" "" ["a", "b"], Post.mk "p1" "" ["a"]]).posts.count p = 1 ∧
        ∀ c ∈ p.Cats,
          p ∈ mapGet (addPosts NewBlog
            [Post.mk "p2" "" ["a", "b"], Post.mk "p1" "" ["a"]]).categories c) :=
  ⟨by decide,
   (addPosts_any_order [Post.mk "p1" "" ["a"], Post.mk "p2" "" ["a", "b"]]
      [Post.mk "p2" "" ["a", "b"], Post.mk "p1" "" ["a"]]
      [Post.mk "p1" "" ["a"], Post.mk "p2" "" ["a", "b"]]
      (by decide) (List.Perm.swap _ _ _) (List.Perm.refl _)).1⟩

/-! ## Discovery: `getCat` -/

theorem splitOn_of_not_mem (sep : Char) (s : List Char) (h : sep ∉ s) :
    splitOn sep s = [s] := by
  induction s with
  | nil => rfl
  | cons c cs ih =>
    have hc : ¬ c = sep := fun e => h (by simp [e])
    have hcs : sep ∉ cs := fun m => h (List.mem_cons_of_mem _ m)
    simp [splitOn, hc, ih hcs]

theorem splitOn_append_sep (sep : Char) (s rest : List Char) (h : sep ∉ s) :
    splitOn sep (s ++ sep :: rest) = s :: splitOn sep rest := by
  induction s with
  | nil => simp [splitOn]
  | cons c cs ih =>
    have hc : ¬ c = sep := fun e => h (by simp [e])
    have hcs : sep ∉ cs := fun m => h (List.mem_cons_of_mem _ m)
    simp [splitOn, hc, ih hcs]

theorem splitOn_joinSegs (segs : List (List Char)) (hne : segs ≠ [])
    (h : ∀ s ∈ segs, PathSeparator ∉ s) :
    splitOn PathSeparator (joinSegs segs) = segs := by
  induction segs with
  | nil => exact absurd rfl hne
  | cons s t ih =>
    cases t with
    | nil => exact splitOn_of_not_mem _ _ (h s (by simp))
    | cons u r =>
      have hs : PathSeparator ∉ s := h s (by simp)
      have ht : ∀ x ∈ u :: r, PathSeparator ∉ x := fun x hx => h x (List.mem_cons_of_mem _ hx)
      rw [joinSegs, splitOn_append_sep _ _ _ hs, ih (by simp) ht]

/-- C4: for a path `root/c/.../file` whose root is one segment, `getCat`
returns the first segment `c` below the root at any nesting depth, and for
`root/file` it returns the empty string. -/
theorem getCat_spec (root c file : List Char) (mid : List (List Char))
    (hroot : PathSeparator ∉ root) (hc : PathSeparator ∉ c)
    (hmid : ∀ s ∈ mid, PathSeparator ∉ s) (hfile : PathSeparator ∉ file) :
    getCat (String.mk (joinSegs (root :: c :: (mid ++ [file])))) = String.mk c ∧
    getCat (String.mk (joinSegs [root, file])) = "" := by
  constructor
  · have hall : ∀ s ∈ root :: c :: (mid ++ [file]), PathSeparator ∉ s := by
      intro s hs
      simp only [List.mem_cons, List.mem_append, List.mem_singleton, List.not_mem_nil,
        or_false] at hs
      rcases hs with rfl | rfl | hs | rfl
      · exact hroot
      · exact hc
      · exact hmid s hs
      · exact hfile
    simp [getCat, stringsSplit, splitOn_joinSegs _ (by simp) hall]
  · have hall : ∀ s ∈ [root, file], PathSeparator ∉ s := by
      intro s hs
      simp only [List.mem_cons, List.mem_singleton, List.not_mem_nil, or_false] at hs
      rcases hs with rfl | rfl
      · exact hroot
      · exact hfile
    simp [getCat, stringsSplit, splitOn_joinSegs _ (by simp) hall]

/-- The theorem `getCat_spec` at `markdown/a/2020/p1.md` and `markdown/p1.md`. -/
theorem getCat_spec_witness :
    getCat "markdown/a/2020/p1.md" = "a" ∧ getCat "markdown/p1.md" = "" :=
  getCat_spec "markdown".data "a".data "p1.md".data ["2020".data]
    (by decide) (by decide) (by decide) (by decide)

/-! ## Discovery: `isFileValid` -/

theorem extScan_suffix (r acc e : List Char) (h : extScan r acc = e) :
    e = [] ∨ ∃ pre, r.reverse ++ acc = pre ++ e := by
  induction r generalizing acc with
  | nil => left; simpa [extScan] using h.symm
  | cons c rest ih =>
    by_cases h1 : c = '/'
    · left; simpa [extScan, h1] using h.symm
    · by_cases h2 : c = '.'
      · right
        refine ⟨rest.reverse, ?_⟩
        simp only [extScan, h1, h2, if_false, if_true] at h
        subst h2
        simp [← h]
      · simp only [extScan, h1, h2, if_false] at h
        rcases ih (c :: acc) h with he | ⟨pre, hp⟩
        · exact Or.inl he
        · exact Or.inr ⟨pre, by simpa using hp⟩

theorem extScan_found (k r acc : List Char) (hdot : '.' ∉ k) (hsl : '/' ∉ k) :
    extScan (k ++ '.' :: r) acc = '.' :: (k.reverse ++ acc) := by
  induction k generalizing acc with
  | nil => simp [extScan]
  | cons c k ih =>
    have h1 : ¬ c = '/' := fun e => hsl (by simp [e])
    have h2 : ¬ c = '.' := fun e => hdot (by simp [e])
    have := ih (c :: acc) (fun m => hdot (List.mem_cons_of_mem _ m))
      (fun m => hsl (List.mem_cons_of_mem _ m))
    simp [extScan, h1, h2, this]

theorem lastDotSuffix?_suffix (l s : List Char) (h : lastDotSuffix? l = some s) :
    ∃ pre, l = pre ++ s := by
  induction l with
  | nil => simp [lastDotSuffix?] at h
  | cons c cs ih =>
    cases hcs : lastDotSuffix? cs with
    | some s' =>
      simp only [lastDotSuffix?, hcs, Option.some.injEq] at h
      subst h
      obtain ⟨pre, hp⟩ := ih hcs
      exact ⟨c :: pre, by simp [hp]⟩
    | none =>
      simp only [lastDotSuffix?, hcs] at h
      by_cases h2 : c = '.'
      · simp only [h2, if_true, Option.some.injEq] at h
        exact ⟨[], by simp [← h, h2]⟩
      · simp [h2] at h

theorem lastDotSuffix?_none (l : List Char) (h : '.' ∉ l) : lastDotSuffix? l = none := by
  induction l with
  | nil => rfl
  | cons c cs ih =>
    have h2 : ¬ c = '.' := fun e => h (by simp [e])
    simp [lastDotSuffix?, ih (fun m => h (List.mem_cons_of_mem _ m)), h2]

theorem lastDotSuffix?_found (pre body : List Char) (h : '.' ∉ body) :
    lastDotSuffix? (pre ++ '.' :: body) = some ('.' :: body) := by
  induction pre with
  | nil => simp [lastDotSuffix?, lastDotSuffix?_none body h]
  | cons c pre ih => simp [lastDotSuffix?, ih]

theorem pathExt_eq_iff (n : String) (body : List Char) (hdot : '.' ∉ body) (hsl : '/' ∉ body) :
    pathExt n = String.mk ('.' :: body) ↔ ∃ pre, n.data = pre ++ '.' :: body := by
  constructor
  · intro h
    have h' : extScan n.data.reverse [] = '.' :: body := by
      simpa [pathExt] using congrArg String.data h
    rcases extScan_suffix _ _ _ h' with he | ⟨pre, hp⟩
    · simp at he
    · exact ⟨pre, by simpa using hp⟩
  · rintro ⟨pre, hp⟩
    have := extScan_found body.reverse pre.reverse [] (by simpa using hdot) (by simpa using hsl)
    simp [pathExt, hp, this]

theorem lastDotSuffix_eq_iff (n : String) (body : List Char) (hdot : '.' ∉ body) :
    lastDotSuffix n = String.mk ('.' :: body) ↔ ∃ pre, n.data = pre ++ '.' :: body := by
  constructor
  · intro h
    have h' : (lastDotSuffix? n.data).getD [] = '.' :: body := by
      simpa [lastDotSuffix] using congrArg String.data h
    cases hl : lastDotSuffix? n.data with
    | none => simp [hl] at h'
    | some s =>
      simp only [hl, Option.getD_some] at h'
      subst h'
      exact lastDotSuffix?_suffix _ _ hl
  · rintro ⟨pre, hp⟩
    simp [lastDotSuffix, hp, lastDotSuffix?_found pre body hdot]

theorem isFileValid_iff (n : String) :
    isFileValid n = true ↔ (lastDotSuffix n = ".md" ∨ lastDotSuffix n = ".markdown") := by
  have e1 : (".md" : String) = String.mk ('.' :: "md".data) := rfl
  have e2 : (".markdown" : String) = String.mk ('.' :: "markdown".data) := rfl
  have a1 := pathExt_eq_iff n "md".data (by decide) (by decide)
  have a2 := pathExt_eq_iff n "markdown".data (by decide) (by decide)
  have b1 := lastDotSuffix_eq_iff n "md".data (by decide)
  have b2 := lastDotSuffix_eq_iff n "markdown".data (by decide)
  simp only [isFileValid, Bool.or_eq_true, beq_iff_eq]
  rw [e1, e2, a1, a2, b1, b2]

theorem walkFn_invalid (st : GoMap String × GoMap String) (e : Entry)
    (h : isFileValid e.name = false) : walkFn st e = st := by
  simp [walkFn, h]

theorem foldl_walkFn_filter (entries : List Entry) (st : GoMap String × GoMap String) :
    entries.foldl walkFn st = (validEntries entries).foldl walkFn st := by
  induction entries generalizing st with
  | nil => rfl
  | cons e es ih =>
    by_cases h : isFileValid e.name = true
    · simp only [validEntries] at ih ⊢
      simp [List.filter_cons, h, ih]
    · have h' : isFileValid e.name = false := by simpa using h
      simp only [validEntries] at ih ⊢
      simp [List.filter_cons, h', walkFn_invalid _ _ h', ih]

/-- C5: `isFileValid` accepts a name exactly when the suffix starting at its
last dot is ".md" or ".markdown"; an entry it rejects leaves both maps of
`getMdFiles` as they were, so the maps are those of the accepted entries. -/
theorem isFileValid_spec (entries : List Entry) (e : Entry) :
    (isFileValid e.name = true ↔
      (lastDotSuffix e.name = ".md" ∨ lastDotSuffix e.name = ".markdown")) ∧
    (isFileValid e.name = false → ∀ st, walkFn st e = st) ∧
    getMdFiles entries = getMdFiles (validEntries entries) :=
  ⟨isFileValid_iff e.name, fun h st => walkFn_invalid st e h,
   foldl_walkFn_filter entries ([], [])⟩


/-! ## Discovery and phase 1: the number of posts -/

theorem mapKeys_walkFn (st : GoMap String × GoMap String) (e : Entry) :
    mapKeys (walkFn st e).1 =
      if isFileValid e.name = true ∧ e.name ∉ mapKeys st.1 then mapKeys st.1 ++ [e.name]
      else mapKeys st.1 := by
  by_cases hv : isFileValid e.name = true
  · by_cases hc : getCat e.path = "" <;> by_cases hk : e.name ∈ mapKeys st.1 <;>
      simp [walkFn, hv, hc, hk, mapKeys_mapSet]
  · simp [walkFn, hv]

theorem mapKeys_foldl_walkFn (entries : List Entry) (st : GoMap String × GoMap String)
    (hnd : (mapKeys st.1).Nodup) :
    (mapKeys (entries.foldl walkFn st).1).Nodup ∧
    ∀ k, k ∈ mapKeys (entries.foldl walkFn st).1 ↔
      (k ∈ mapKeys st.1 ∨ k ∈ (validEntries entries).map Entry.name) := by
  induction entries generalizing st with
  | nil => simp [validEntries, hnd]
  | cons e es ih =>
    have hk := mapKeys_walkFn st e
    have hnd' : (mapKeys (walkFn st e).1).Nodup := by
      rw [hk]
      split
      · rename_i h
        exact List.Nodup.append hnd (List.nodup_singleton _) (by simpa using h.2)
      · exact hnd
    obtain ⟨h1, h2⟩ := ih (walkFn st e) hnd'
    refine ⟨h1, fun k => ?_⟩
    rw [List.foldl_cons, h2 k, hk]
    by_cases hv : isFileValid e.name = true
    · by_cases hm : e.name ∈ mapKeys st.1
      · simp only [validEntries, List.filter_cons, hv, hm, not_true_eq_false, and_false,
          if_false, if_true, List.map_cons, List.mem_cons]
        constructor
        · rintro (h | h)
          · exact Or.inl h
          · exact Or.inr (Or.inr h)
        · rintro (h | h | h)
          · exact Or.inl h
          · exact Or.inl (h ▸ hm)
          · exact Or.inr h
      · simp only [validEntries, List.filter_cons, hv, hm, not_false_eq_true, and_self,
          if_true, List.map_cons, List.mem_cons, List.mem_append, List.mem_singleton]
        tauto
    · simp [validEntries, List.filter_cons, hv]

theorem files_keys (entries : List Entry) :
    (mapKeys (getMdFiles entries).1).Perm ((validEntries entries).map Entry.name).dedup := by
  obtain ⟨h1, h2⟩ := mapKeys_foldl_walkFn entries ([], []) (by simp [mapKeys])
  refine (List.perm_ext_iff_of_nodup h1 (List.nodup_dedup _)).mpr fun k => ?_
  rw [List.mem_dedup]
  simpa [mapKeys] using h2 k

theorem foldl_parseJob (title body : String → String) (done : List Pair) (b : Blog) :
    done.foldl (parseJob title body) b
      = addPosts b (done.map (fun f => NewPost title body f.key f.val)) := by
  simp only [addPosts, List.foldl_map]
  rfl

theorem parsePhase_posts (title body : String → String) (done : List Pair) :
    (parsePhase title body done).posts = done.map (fun f => NewPost title body f.key f.val) := by
  simp [parsePhase, foldl_parseJob, addPosts_posts, NewBlog]

theorem parsePhase_categories (title body : String → String) (done : List Pair) (c : String) :
    mapGet (parsePhase title body done).categories c
      = (done.map (fun f => NewPost title body f.key f.val)).flatMap
          (fun p => List.replicate (p.Cats.count c) p) := by
  simp [parsePhase, foldl_parseJob, addPosts_categories, NewBlog, mapGet]

/-! ## Discovery: the two maps -/

theorem walkFn_consistent (N : List String) (st : GoMap String × GoMap String) (e : Entry)
    (hP : ∀ f c, (mapGet st.1 f).count c = (mapGet st.2 c).count f)
    (hQ : ∀ f, mapGet st.1 f ≠ [] → f ∈ N)
    (hcat : isFileValid e.name = true → getCat e.path ≠ "" → e.name ∈ N)
    (hroot : isFileValid e.name = true → getCat e.path = "" → e.name ∉ N) :
    (∀ f c, (mapGet (walkFn st e).1 f).count c = (mapGet (walkFn st e).2 c).count f) ∧
    (∀ f, mapGet (walkFn st e).1 f ≠ [] → f ∈ N) := by
  by_cases hv : isFileValid e.name = true
  · by_cases hc : getCat e.path = ""
    · have hempty : mapGet st.1 e.name = [] := by
        by_contra hne
        exact hroot hv hc (hQ _ hne)
      have hsame : ∀ f, mapGet (mapSet st.1 e.name []) f = mapGet st.1 f := by
        intro f
        rw [mapGet_mapSet]
        split
        · rename_i h
          rw [← h, hempty]
        · rfl
      simp only [walkFn, hv, hc, if_true, ne_eq, not_true_eq_false, if_false, hsame]
      exact ⟨hP, hQ⟩
    · simp only [walkFn, hv, if_true, ne_eq, hc, not_false_eq_true, mapGet_mapSet]
      constructor
      · intro f c
        by_cases hf : e.name = f <;> by_cases hcc : getCat e.path = c <;>
          simp [hf, hcc, hP, List.count_append, List.count_cons, List.count_nil]
      · intro f hne
        by_cases hf : e.name = f
        · exact hf ▸ hcat hv hc
        · simp only [hf, if_false] at hne
          exact hQ f hne
  · simp only [walkFn, hv, Bool.false_eq_true, if_false]
    exact ⟨hP, hQ⟩

/-- When no accepted entry at the root shares its name with an accepted entry
inside a category directory, the two maps of `getMdFiles` agree: `c` occurs in
`files[f]` as often as `f` occurs in `cats[c]`. -/
theorem getMdFiles_consistent (entries : List Entry)
    (hdisj : ∀ e ∈ validEntries entries, ∀ e' ∈ validEntries entries,
      getCat e.path = "" → getCat e'.path ≠ "" → e.name ≠ e'.name) :
    ∀ f c, (mapGet (getMdFiles entries).1 f).count c
      = (mapGet (getMdFiles entries).2 c).count f := by
  have key : ∀ (es : List Entry) (st : GoMap String × GoMap String),
      (∀ e ∈ es, e ∈ entries) →
      (∀ f c, (mapGet st.1 f).count c = (mapGet st.2 c).count f) →
      (∀ f, mapGet st.1 f ≠ [] →
        f ∈ ((validEntries entries).filter (fun e => getCat e.path ≠ "")).map Entry.name) →
      ∀ f c, (mapGet (es.foldl walkFn st).1 f).count c
        = (mapGet (es.foldl walkFn st).2 c).count f := by
    intro es
    induction es with
    | nil => intro st _ hP _; exact hP
    | cons e es ih =>
      intro st hsub hP hQ
      have he : e ∈ entries := hsub e (by simp)
      obtain ⟨hP', hQ'⟩ := walkFn_consistent _ st e hP hQ
        (fun hv hc => List.mem_map.mpr ⟨e, by simp [validEntries, he, hv, hc], rfl⟩)
        (fun hv hc hmem => by
          obtain ⟨e', he', hname⟩ := List.mem_map.mp hmem
          rw [List.mem_filter] at he'
          exact hdisj e (by simp [validEntries, he, hv]) e' he'.1 hc (by simpa using he'.2)
            hname.symm)
      exact ih (walkFn st e) (fun x hx => hsub x (List.mem_cons_of_mem _ hx)) hP' hQ'
  exact key entries ([], []) (fun _ h => h) (fun _ _ => rfl) (fun f h => absurd rfl h)

/-- C10, at a root file and a category file of one name: the walk of a tree
holding `markdown/a/p.md` and `markdown/p.md` visits the directory `a` first;
`getMdFiles` returns `cats["a"] = ["p.md"]` and `files["p.md"] = []`. -/
theorem getMdFiles_root_file_resets :
    getMdFiles [⟨"./markdown/", "markdown"⟩, ⟨"markdown/a", "a"⟩,
        ⟨"markdown/a/p.md", "p.md"⟩, ⟨"markdown/p.md", "p.md"⟩]
      = ([("p.md", [])], [("a", ["p.md"])]) ∧
    "p.md" ∈ mapGet (getMdFiles [⟨"./markdown/", "markdown"⟩, ⟨"markdown/a", "a"⟩,
        ⟨"markdown/a/p.md", "p.md"⟩, ⟨"markdown/p.md", "p.md"⟩]).2 "a" ∧
    "a" ∉ mapGet (getMdFiles [⟨"./markdown/", "markdown"⟩, ⟨"markdown/a", "a"⟩,
        ⟨"markdown/a/p.md", "p.md"⟩, ⟨"markdown/p.md", "p.md"⟩]).1 "p.md" := by
  decide

/-! ## Output paths -/

/-- C9, at the root path `site`: `getIndexPage` creates the directory
`site/public` and the file `public/index.html`, which is not the file
`site/public/index.html` and is not under that directory, while with the empty
root path the directory is `public`; for every root path the file it creates
is `public/index.html`; `renderCat` writes the page of category `news` at
`public/cats/news/index.html`, a path that does not depend on the root path. -/
theorem getIndexPage_file_outside_root :
    getIndexPage "site" = { dir := "site/public", file := "public/index.html" } ∧
    (getIndexPage "site").file ≠ "site/public/index.html" ∧
    ¬ ((getIndexPage "site").dir.data ++ [PathSeparator] <+: (getIndexPage "site").file.data) ∧
    getIndexPage "" = { dir := "public", file := "public/index.html" } ∧
    (∀ r : String, (getIndexPage r).file = "public/index.html") ∧
    renderCatDir "news" = "public/cats/news" ∧
    renderCatFile "news" = "public/cats/news/index.html" := by
  refine ⟨by decide, by decide, by decide, by decide, fun _ => rfl, by decide, by decide⟩

/-! ## The dispatcher and the workers: the barrier -/

theorem getElem?_set_split (ws : List Worker) (i : Nat) (w : Worker) (h : ws[i]? = some w) :
    ∃ pre post, ws = pre ++ w :: post ∧ ∀ w', ws.set i w' = pre ++ w' :: post := by
  induction ws generalizing i with
  | nil => simp at h
  | cons a ws ih =>
    cases i with
    | zero =>
      simp only [List.getElem?_cons_zero, Option.some.injEq] at h
      subst h
      exact ⟨[], ws, rfl, fun _ => rfl⟩
    | succ i =>
      simp only [List.getElem?_cons_succ] at h
      obtain ⟨pre, post, h1, h2⟩ := ih i h
      exact ⟨a :: pre, post, by simp [h1], fun w' => by simp [h2 w']⟩

theorem countP_replicate_idle (p : Worker → Bool) (hp : p Worker.idle = false) (n : Nat) :
    List.countP p (List.replicate n Worker.idle) = 0 := by
  rw [List.countP_eq_zero]
  intro w hw
  rw [List.eq_of_mem_replicate hw]
  simp [hp]

theorem countInv_init (wLimit : Nat) (jobs : List Pair) : CountInv (initRun wLimit jobs) := by
  simp [CountInv, initRun, countP_replicate_idle Worker.parsing rfl,
    countP_replicate_idle Worker.rendering rfl]

theorem outInv_init (wLimit : Nat) (jobs : List Pair) : OutInv (initRun wLimit jobs) := by
  simp [OutInv, PagesOk, initRun]

theorem storeInv_init (title body : String → String) (wLimit : Nat) (jobs : List Pair) :
    StoreInv title body jobs (initRun wLimit jobs) := by
  refine ⟨[], rfl, ?_⟩
  have h : inflight (List.replicate wLimit Worker.idle) = [] := by
    rw [inflight, List.filterMap_eq_nil_iff]
    intro w hw
    rw [List.eq_of_mem_replicate hw]
    rfl
  simp [initRun, Run.unsent, h]

theorem countInv_step (title body : String → String) (catOrder : List String) (s s' : Run)
    (a : Action) (hinv : CountInv s) (h : step title body catOrder s a = some s') :
    CountInv s' := by
  obtain ⟨pc, ws, wg, store, pages, index⟩ := s
  cases a with
  | recv i =>
    simp only [step] at h
    split at h
    · rename_i f rest hw
      obtain ⟨pre, post, rfl, hset⟩ := getElem?_set_split _ _ _ hw
      simp only [Option.some.injEq] at h
      subst h
      simp only [CountInv, hset, List.countP_append, List.countP_cons, Worker.parsing,
        Worker.rendering, List.length_cons, Bool.false_eq_true, if_false, if_true] at hinv ⊢
      omega
    · rename_i c rest hw
      obtain ⟨pre, post, rfl, hset⟩ := getElem?_set_split _ _ _ hw
      simp only [Option.some.injEq] at h
      subst h
      simp only [CountInv, hset, List.countP_append, List.countP_cons, Worker.parsing,
        Worker.rendering, List.length_cons, Bool.false_eq_true, if_false, if_true] at hinv ⊢
      omega
    · simp at h
  | work i =>
    simp only [step] at h
    split at h
    all_goals first
      | (rename_i hw
         obtain ⟨pre, post, rfl, hset⟩ := getElem?_set_split _ _ _ hw
         simp only [Option.some.injEq] at h
         subst h
         cases pc <;>
         simp only [CountInv, hset, List.countP_append, List.countP_cons, Worker.parsing,
           Worker.rendering, List.length_cons, Bool.false_eq_true, if_false, if_true] at hinv ⊢ <;>
         omega)
      | simp at h
  | main =>
    simp only [step] at h
    split at h
    all_goals first
      | (split at h
         · simp only [Option.some.injEq] at h
           subst h
           simp only [CountInv, List.length_nil] at hinv ⊢
           omega
         · simp at h)
      | (simp only [Option.some.injEq] at h
         subst h
         simp only [CountInv, List.length_nil] at hinv ⊢
         omega)
      | simp at h

theorem outInv_step (title body : String → String) (catOrder : List String) (s s' : Run)
    (a : Action) (hc : CountInv s) (hinv : OutInv s)
    (h : step title body catOrder s a = some s') : OutInv s' := by
  obtain ⟨pc, ws, wg, store, pages, index⟩ := s
  cases a with
  | recv i =>
    simp only [step] at h
    split at h
    · simp only [Option.some.injEq] at h
      subst h
      simpa [OutInv, PagesOk, Run.phase1] using hinv
    · simp only [Option.some.injEq] at h
      subst h
      simpa [OutInv, PagesOk, Run.phase1] using hinv
    · simp at h
  | work i =>
    simp only [step] at h
    split at h
    · rename_i f hw
      obtain ⟨pre, post, rfl, hset⟩ := getElem?_set_split _ _ _ hw
      simp only [Option.some.injEq] at h
      subst h
      cases pc <;>
      simp only [CountInv, List.countP_append, List.countP_cons, Worker.parsing,
        Bool.false_eq_true, if_false, if_true] at hc <;>
      first
        | omega
        | (simp only [OutInv, PagesOk, Run.phase1] at hinv ⊢
           obtain ⟨h1, -, -⟩ := hinv
           obtain ⟨hp, hi⟩ := h1 trivial
           subst hp hi
           simp)
    · simp only [Option.some.injEq] at h
      subst h
      simpa [OutInv, PagesOk, Run.phase1] using hinv
    · rename_i c hw
      obtain ⟨pre, post, rfl, hset⟩ := getElem?_set_split _ _ _ hw
      simp only [Option.some.injEq] at h
      subst h
      cases pc <;>
      simp only [CountInv, List.countP_append, List.countP_cons, Worker.rendering,
        Bool.false_eq_true, if_false, if_true] at hc <;>
      first
        | omega
        | (simp only [OutInv, PagesOk, Run.phase1] at hinv ⊢
           obtain ⟨-, h2, h3⟩ := hinv
           refine ⟨by simp, ?_, by simpa using h3⟩
           intro pg hpg
           rcases List.mem_append.mp hpg with hpg | hpg
           · exact h2 pg hpg
           · simp only [List.mem_singleton] at hpg
             subst hpg
             rfl)
    · simp only [Option.some.injEq] at h
      subst h
      simpa [OutInv, PagesOk, Run.phase1] using hinv
    · simp at h
  | main =>
    simp only [step] at h
    split at h
    all_goals first
      | (split at h
         · simp only [Option.some.injEq] at h
           subst h
           simp only [OutInv, PagesOk, Run.phase1] at hinv ⊢
           obtain ⟨h1, h2, h3⟩ := hinv
           refine ⟨by simp, h2, fun ps hps => ?_⟩
           have := (h3 ps hps).2
           simp at this
         · simp at h)
      | (simp only [Option.some.injEq] at h
         subst h
         simp only [OutInv, PagesOk, Run.phase1] at hinv ⊢
         obtain ⟨h1, h2, h3⟩ := hinv
         refine ⟨by simp, h2, fun ps hps => ?_⟩
         first
           | exact absurd (h3 ps hps).2 (by simp)
           | (simp only [Option.some.injEq] at hps
              exact ⟨hps.symm, trivial⟩))
      | simp at h

theorem inflight_append (xs ys : List Worker) :
    inflight (xs ++ ys) = inflight xs ++ inflight ys := by
  simp [inflight, List.filterMap_append]

theorem inflight_cons (w : Worker) (ws : List Worker) :
    inflight (w :: ws) = (match w.job? with | some f => [f] | none => []) ++ inflight ws := by
  cases h : w.job? <;> simp [inflight, List.filterMap_cons, h]

theorem perm_hand_over (A B C D : List Pair) (f : Pair) :
    (A ++ (B ++ f :: C ++ D)).Perm (A ++ (B ++ C ++ f :: D)) := by
  refine List.Perm.append_left A ?_
  rw [List.append_assoc, List.append_assoc]
  refine List.Perm.append_left B ?_
  simp only [List.cons_append]
  exact List.perm_middle.symm

theorem perm_take_effect (A B C D : List Pair) (f : Pair) :
    (A ++ [f] ++ (B ++ C ++ D)).Perm (A ++ (B ++ f :: C ++ D)) := by
  rw [List.append_assoc]
  refine List.Perm.append_left A ?_
  simp only [List.singleton_append, List.append_assoc]
  exact List.perm_middle.symm

theorem storeInv_step (title body : String → String) (catOrder : List String)
    (jobs : List Pair) (s s' : Run) (a : Action) (hinv : StoreInv title body jobs s)
    (h : step title body catOrder s a = some s') : StoreInv title body jobs s' := by
  obtain ⟨pc, ws, wg, store, pages, index⟩ := s
  obtain ⟨done, hstore, hperm⟩ := hinv
  simp only at hstore
  cases a with
  | recv i =>
    simp only [step] at h
    split at h
    · rename_i f rest hw
      obtain ⟨pre, post, rfl, hset⟩ := getElem?_set_split _ _ _ hw
      simp only [Option.some.injEq] at h
      subst h
      refine ⟨done, hstore, ?_⟩
      simp only [hset, Run.unsent, inflight_append, inflight_cons, Worker.job?,
        List.nil_append, List.singleton_append] at hperm ⊢
      exact (perm_hand_over done _ _ rest f).trans hperm
    · rename_i c rest hw
      obtain ⟨pre, post, rfl, hset⟩ := getElem?_set_split _ _ _ hw
      simp only [Option.some.injEq] at h
      subst h
      refine ⟨done, hstore, ?_⟩
      simpa only [hset, Run.unsent, inflight_append, inflight_cons, Worker.job?,
        List.nil_append] using hperm
    · simp at h
  | work i =>
    simp only [step] at h
    split at h
    · rename_i f hw
      obtain ⟨pre, post, rfl, hset⟩ := getElem?_set_split _ _ _ hw
      simp only [Option.some.injEq] at h
      subst h
      refine ⟨done ++ [f], ?_, ?_⟩
      · simp [hstore, parsePhase, List.foldl_append]
      · simp only [hset, Run.unsent, inflight_append, inflight_cons, Worker.job?,
          List.nil_append, List.singleton_append] at hperm ⊢
        exact (perm_take_effect done _ _ _ f).trans hperm
    all_goals first
      | (rename_i hw
         obtain ⟨pre, post, rfl, hset⟩ := getElem?_set_split _ _ _ hw
         simp only [Option.some.injEq] at h
         subst h
         refine ⟨done, hstore, ?_⟩
         simpa only [hset, Run.unsent, inflight_append, inflight_cons, Worker.job?,
           List.nil_append] using hperm)
      | simp at h
  | main =>
    simp only [step] at h
    split at h
    all_goals first
      | (split at h
         · simp only [Option.some.injEq] at h
           subst h
           exact ⟨done, hstore, by simpa only [Run.unsent] using hperm⟩
         · simp at h)
      | (simp only [Option.some.injEq] at h
         subst h
         exact ⟨done, hstore, by simpa only [Run.unsent] using hperm⟩)
      | simp at h

/-- The three invariants hold along every schedule. -/
theorem exec_inv (title body : String → String) (catOrder : List String) (jobs : List Pair)
    (acts : List Action) (s s' : Run) (h : exec title body catOrder s acts = some s')
    (hc : CountInv s) (ho : OutInv s) (hs : StoreInv title body jobs s) :
    CountInv s' ∧ OutInv s' ∧ StoreInv title body jobs s' := by
  induction acts generalizing s with
  | nil =>
    simp only [exec, Option.some.injEq] at h
    subst h
    exact ⟨hc, ho, hs⟩
  | cons a acts ih =>
    simp only [exec] at h
    cases hstep : step title body catOrder s a with
    | none => simp [hstep] at h
    | some t =>
      simp only [hstep] at h
      exact ih t h (countInv_step title body catOrder s t a hc hstep)
        (outInv_step title body catOrder s t a hc ho hstep)
        (storeInv_step title body catOrder jobs s t a hs hstep)

theorem inflight_eq_nil (ws : List Worker) (h : ws.countP Worker.parsing = 0) :
    inflight ws = [] := by
  rw [List.countP_eq_zero] at h
  rw [inflight, List.filterMap_eq_nil_iff]
  intro w hw
  have := h w hw
  cases w <;> simp_all [Worker.parsing, Worker.job?]

theorem any_rendering_eq_false (ws : List Worker) (h : ws.countP Worker.rendering = 0) :
    ws.any Worker.rendering = false := by
  rw [List.countP_eq_zero] at h
  rw [List.any_eq_false]
  intro w hw
  exact h w hw

theorem phase1_of_pending (s : Run) (hc : CountInv s) (ho : OutInv s)
    (h : s.rendering = true) : s.phase1 = false := by
  obtain ⟨pc, ws, wg, store, pages, index⟩ := s
  cases pc <;> try rfl
  simp only [CountInv] at hc
  obtain ⟨hp, hi⟩ := ho.1 rfl
  simp only at hp hi
  subst hp hi
  simp [Run.rendering, any_rendering_eq_false ws hc.2] at h

theorem settled_of_not_phase1 (title body : String → String) (jobs : List Pair) (s : Run)
    (hc : CountInv s) (hs : StoreInv title body jobs s) (h : s.phase1 = false) :
    s.unfinished = 0 ∧ s.store.posts.length = jobs.length ∧
    ∃ done : List Pair, done.Perm jobs ∧ s.store = parsePhase title body done := by
  obtain ⟨pc, ws, wg, store, pages, index⟩ := s
  obtain ⟨done, hstore, hperm⟩ := hs
  simp only at hstore
  have hP : ws.countP Worker.parsing = 0 := by
    cases pc <;> simp only [CountInv] at hc <;> first | exact hc.2.1 | exact hc.2 | simp [Run.phase1] at h
  have hU : Run.unsent ⟨pc, ws, wg, store, pages, index⟩ = [] := by
    cases pc <;> first | rfl | simp [Run.phase1] at h
  rw [hU, inflight_eq_nil ws hP] at hperm
  simp only [List.append_nil] at hperm
  refine ⟨by simp [Run.unfinished, hU, hP], ?_, done, hperm, hstore⟩
  simp only [hstore, parsePhase_posts, List.length_map]
  exact hperm.length_eq

/-- Past the first `Wait`, or once a render has begun or is due, every parse
job has taken effect: the store is `parsePhase` of some ordering of the jobs. -/
theorem exec_settled (title body : String → String) (catOrder : List String) (wLimit : Nat)
    (jobs : List Pair) (acts : List Action) (s : Run)
    (h : exec title body catOrder (initRun wLimit jobs) acts = some s)
    (hp : s.phase1 = false ∨ s.rendering = true) :
    s.unfinished = 0 ∧ s.store.posts.length = jobs.length ∧
    ∃ done : List Pair, done.Perm jobs ∧ s.store = parsePhase title body done := by
  obtain ⟨hc, ho, hs⟩ := exec_inv title body catOrder jobs acts _ s h
    (countInv_init wLimit jobs) (outInv_init wLimit jobs) (storeInv_init title body wLimit jobs)
  rcases hp with hp | hr
  · exact settled_of_not_phase1 title body jobs s hc hs hp
  · exact settled_of_not_phase1 title body jobs s hc hs (phase1_of_pending s hc ho hr)

theorem exec_output (title body : String → String) (catOrder : List String) (wLimit : Nat)
    (jobs : List Pair) (acts : List Action) (s : Run)
    (h : exec title body catOrder (initRun wLimit jobs) acts = some s) :
    (∀ pg ∈ s.pages, pg.2 = mapGet s.store.categories pg.1) ∧
    (∀ ps, s.index = some ps → ps = s.store.posts) := by
  obtain ⟨-, ho, -⟩ := exec_inv title body catOrder jobs acts _ s h
    (countInv_init wLimit jobs) (outInv_init wLimit jobs) (storeInv_init title body wLimit jobs)
  exact ⟨ho.2.1, fun ps hps => (ho.2.2 ps hps).1⟩

/-- C6: in every execution of the dispatcher and any number of workers, under
any interleaving, the counter is armed with the number of parse jobs and is
never negative; while the dispatcher has not passed the first `Wait` the
counter is the number of unfinished parse jobs, and it is zero when the
dispatcher passes; once it has passed, and whenever a worker holds a category
job, a page is written or the root index is due or written, no parse job is
unfinished and the store holds the posts of all parse jobs; every page and the
index show that store. -/
theorem parse_barrier (title body : String → String) (catOrder : List String) (wLimit : Nat)
    (jobs : List Pair) (acts : List Action) (s : Run)
    (h : exec title body catOrder (initRun wLimit jobs) acts = some s) :
    (initRun wLimit jobs).wg = jobs.length ∧ 0 ≤ s.wg ∧
    (s.phase1 = true → s.wg = s.unfinished) ∧
    (s.pc = .armCats → s.wg = 0) ∧
    ((s.phase1 = false ∨ s.rendering = true) →
      s.unfinished = 0 ∧ s.store.posts.length = jobs.length ∧
      ∃ done : List Pair, done.Perm jobs ∧ s.store = parsePhase title body done) ∧
    (∀ pg ∈ s.pages, pg.2 = mapGet s.store.categories pg.1) ∧
    (∀ ps, s.index = some ps → ps = s.store.posts) := by
  obtain ⟨hc, ho, hs⟩ := exec_inv title body catOrder jobs acts _ s h
    (countInv_init wLimit jobs) (outInv_init wLimit jobs) (storeInv_init title body wLimit jobs)
  refine ⟨rfl, ?_, ?_, ?_, ?_, ho.2.1, fun ps hps => (ho.2.2 ps hps).1⟩
  · cases hpc : s.pc <;> simp only [CountInv, hpc] at hc <;> omega
  · intro hp
    cases hpc : s.pc with
    | sendFiles rest =>
      simp only [CountInv, hpc] at hc
      simp only [Run.unfinished, Run.unsent, hpc]
      exact hc.1
    | _ => simp [Run.phase1, hpc] at hp
  · intro hpc
    simp only [CountInv, hpc] at hc
    exact hc.1
  · rintro (hp | hr)
    · exact settled_of_not_phase1 title body jobs s hc hs hp
    · exact settled_of_not_phase1 title body jobs s hc hs (phase1_of_pending s hc ho hr)

/-- The theorem `parse_barrier` at two parse jobs and two workers, in the state
where the second worker has just received the category job `a`. -/
theorem parse_barrier_witness :
    exec (fun k => k) (fun _ => "") ["a"] (initRun 2 [⟨"p1.md", ["a"]⟩, ⟨"p3.md", []⟩])
        [.recv 0, .recv 1, .work 1, .work 0, .work 0, .work 1, .main, .main, .recv 1]
      = some { pc := .sendCats [], workers := [.idle, .gotCat "a"], wg := 1,
               store := { posts := [⟨"p3.md", "", []⟩, ⟨"p1.md", "", ["a"]⟩],
                          categories := [("a", [⟨"p1.md", "", ["a"]⟩])] },
               pages := [], index := none } ∧
    (Run.mk (.sendCats []) [.idle, .gotCat "a"] 1
        { posts := [⟨"p3.md", "", []⟩, ⟨"p1.md", "", ["a"]⟩],
          categories := [("a", [⟨"p1.md", "", ["a"]⟩])] } [] none).unfinished = 0 :=
  ⟨by decide,
   ((parse_barrier (fun k => k) (fun _ => "") ["a"] 2 [⟨"p1.md", ["a"]⟩, ⟨"p3.md", []⟩]
      [.recv 0, .recv 1, .work 1, .work 0, .work 0, .work 1, .main, .main, .recv 1]
      { pc := .sendCats [], workers := [.idle, .gotCat "a"], wg := 1,
        store := { posts := [⟨"p3.md", "", []⟩, ⟨"p1.md", "", ["a"]⟩],
                   categories := [("a", [⟨"p1.md", "", ["a"]⟩])] },
        pages := [], index := none }
      (by decide)).2.2.2.2.1 (Or.inr (by decide))).1⟩

/-! ## Phase 1: the number of posts -/

/-- C2, at two qualifying files with one base name: the walk of a tree holding
`markdown/a/p.md` and `markdown/b/p.md` has two entries that `isFileValid`
accepts and gives one parse job; once that job is done and the dispatcher is
past the first `Wait`, the store holds one post. -/
theorem post_count_collision :
    (validEntries
        [⟨"./markdown/", "markdown"⟩, ⟨"markdown/a", "a"⟩, ⟨"markdown/a/p.md", "p.md"⟩,
         ⟨"markdown/b", "b"⟩, ⟨"markdown/b/p.md", "p.md"⟩]).length = 2 ∧
    pairsOf (getMdFiles
        [⟨"./markdown/", "markdown"⟩, ⟨"markdown/a", "a"⟩, ⟨"markdown/a/p.md", "p.md"⟩,
         ⟨"markdown/b", "b"⟩, ⟨"markdown/b/p.md", "p.md"⟩]).1 = [⟨"p.md", ["a", "b"]⟩] ∧
    (exec (fun k => k) (fun _ => "") ["a", "b"] (initRun 1 [⟨"p.md", ["a", "b"]⟩])
        [.recv 0, .work 0, .work 0, .main]).map (fun s => (s.phase1, s.store.posts.length))
      = some (false, 1) := by
  decide

/-- C2, amended: in every execution of the dispatcher and the workers over the
parse jobs of `getMdFiles`, sent in any order, once the dispatcher is past the
first `Wait` the number of posts in the store is the number of distinct names
among the walked entries that `isFileValid` accepts; it is the number of those
entries when no two of them share a name. -/
theorem post_count (title body : String → String) (entries : List Entry) (wLimit : Nat)
    (jobs : List Pair) (catOrder : List String) (acts : List Action) (s : Run)
    (hjobs : jobs.Perm (pairsOf (getMdFiles entries).1))
    (h : exec title body catOrder (initRun wLimit jobs) acts = some s)
    (hp : s.phase1 = false) :
    s.store.posts.length = ((validEntries entries).map Entry.name).dedup.length ∧
    (((validEntries entries).map Entry.name).Nodup →
      s.store.posts.length = (validEntries entries).length) := by
  have hlen : s.store.posts.length
      = ((validEntries entries).map Entry.name).dedup.length := by
    rw [(exec_settled title body catOrder wLimit jobs acts s h (Or.inl hp)).2.1,
      hjobs.length_eq, ← (files_keys entries).length_eq]
    simp [pairsOf, mapKeys]
  refine ⟨hlen, fun hnd => ?_⟩
  rw [hlen, List.Nodup.dedup hnd, List.length_map]

/-- The theorem `post_count` at the walk of `markdown/a/p1.md` and
`markdown/p3.md`, with two workers. -/
theorem post_count_witness :
    (Blog.mk [⟨"p3.md", "", []⟩, ⟨"p1.md", "", ["a"]⟩]
        [("a", [⟨"p1.md", "", ["a"]⟩])]).posts.length
      = ((validEntries [⟨"./markdown/", "markdown"⟩, ⟨"markdown/a", "a"⟩,
          ⟨"markdown/a/p1.md", "p1.md"⟩, ⟨"markdown/p3.md", "p3.md"⟩]).map
            Entry.name).dedup.length :=
  (post_count (fun k => k) (fun _ => "")
    [⟨"./markdown/", "markdown"⟩, ⟨"markdown/a", "a"⟩,
      ⟨"markdown/a/p1.md", "p1.md"⟩, ⟨"markdown/p3.md", "p3.md"⟩]
    2 [⟨"p1.md", ["a"]⟩, ⟨"p3.md", []⟩] ["a"]
    [.recv 0, .recv 1, .work 1, .work 0, .work 0, .work 1, .main]
    { pc := .armCats, workers := [.idle, .idle], wg := 0,
      store := { posts := [⟨"p3.md", "", []⟩, ⟨"p1.md", "", ["a"]⟩],
                 categories := [("a", [⟨"p1.md", "", ["a"]⟩])] },
      pages := [], index := none }
    (by
      have e : pairsOf (getMdFiles [⟨"./markdown/", "markdown"⟩, ⟨"markdown/a", "a"⟩,
          ⟨"markdown/a/p1.md", "p1.md"⟩, ⟨"markdown/p3.md", "p3.md"⟩]).1
          = [⟨"p1.md", ["a"]⟩, ⟨"p3.md", []⟩] := by decide
      rw [e])
    (by decide) (by decide)).1

/-! ## The order of the posts handed to the templates -/

/-- C8, at two posts of one category: two executions over the parse jobs of
`markdown/a/p1.md` and `markdown/a/p2.md`, one with the jobs done in the order
sent and one with the second worker first, hand different sequences to the
index template and to the template of category `a`. -/
theorem render_order_differs :
    pairsOf (getMdFiles
        [⟨"./markdown/", "markdown"⟩, ⟨"markdown/a", "a"⟩, ⟨"markdown/a/p1.md", "p1.md"⟩,
         ⟨"markdown/a/p2.md", "p2.md"⟩]).1 = [⟨"p1.md", ["a"]⟩, ⟨"p2.md", ["a"]⟩] ∧
    (exec (fun k => k) (fun _ => "") ["a"] (initRun 2 [⟨"p1.md", ["a"]⟩, ⟨"p2.md", ["a"]⟩])
        [.recv 0, .recv 1, .work 0, .work 1, .work 0, .work 1, .main, .main,
         .recv 0, .work 0, .work 0, .main, .main, .main]).map (fun s => (s.index, s.pages))
      = some (some [⟨"p1.md", "", ["a"]⟩, ⟨"p2.md", "", ["a"]⟩],
              [("a", [⟨"p1.md", "", ["a"]⟩, ⟨"p2.md", "", ["a"]⟩])]) ∧
    (exec (fun k => k) (fun _ => "") ["a"] (initRun 2 [⟨"p1.md", ["a"]⟩, ⟨"p2.md", ["a"]⟩])
        [.recv 0, .recv 1, .work 1, .work 0, .work 0, .work 1, .main, .main,
         .recv 0, .work 0, .work 0, .main, .main, .main]).map (fun s => (s.index, s.pages))
      = some (some [⟨"p2.md", "", ["a"]⟩, ⟨"p1.md", "", ["a"]⟩],
              [("a", [⟨"p2.md", "", ["a"]⟩, ⟨"p1.md", "", ["a"]⟩])]) := by
  decide

/-- C8, amended: for two executions over one source tree, whatever the orders
in which the parse jobs are sent and done, the posts handed to the index
template, and the posts handed to the template of each category, are the same
up to their order. -/
theorem render_same_posts (title body : String → String) (entries : List Entry)
    (w₁ w₂ : Nat) (jobs₁ jobs₂ : List Pair) (cats₁ cats₂ : List String)
    (acts₁ acts₂ : List Action) (s₁ s₂ : Run)
    (hj₁ : jobs₁.Perm (pairsOf (getMdFiles entries).1))
    (hj₂ : jobs₂.Perm (pairsOf (getMdFiles entries).1))
    (h₁ : exec title body cats₁ (initRun w₁ jobs₁) acts₁ = some s₁)
    (h₂ : exec title body cats₂ (initRun w₂ jobs₂) acts₂ = some s₂) :
    (∀ ps₁ ps₂, s₁.index = some ps₁ → s₂.index = some ps₂ → ps₁.Perm ps₂) ∧
    (∀ c l₁ l₂, (c, l₁) ∈ s₁.pages → (c, l₂) ∈ s₂.pages → l₁.Perm l₂) := by
  have key : ∀ (w : Nat) (jobs : List Pair) (cats : List String) (acts : List Action) (s : Run),
      jobs.Perm (pairsOf (getMdFiles entries).1) →
      exec title body cats (initRun w jobs) acts = some s → s.rendering = true →
      ∃ done : List Pair, done.Perm (pairsOf (getMdFiles entries).1) ∧
        s.store = parsePhase title body done := by
    intro w jobs cats acts s hj h hr
    obtain ⟨-, -, done, hd, hst⟩ := exec_settled title body cats w jobs acts s h (Or.inr hr)
    exact ⟨done, hd.trans hj, hst⟩
  have o₁ := exec_output title body cats₁ w₁ jobs₁ acts₁ s₁ h₁
  have o₂ := exec_output title body cats₂ w₂ jobs₂ acts₂ s₂ h₂
  constructor
  · intro ps₁ ps₂ e₁ e₂
    obtain ⟨d₁, p₁, st₁⟩ := key w₁ jobs₁ cats₁ acts₁ s₁ hj₁ h₁ (by simp [Run.rendering, e₁])
    obtain ⟨d₂, p₂, st₂⟩ := key w₂ jobs₂ cats₂ acts₂ s₂ hj₂ h₂ (by simp [Run.rendering, e₂])
    rw [o₁.2 ps₁ e₁, o₂.2 ps₂ e₂, st₁, st₂, parsePhase_posts, parsePhase_posts]
    exact (p₁.trans p₂.symm).map _
  · intro c l₁ l₂ m₁ m₂
    have r₁ : s₁.rendering = true := by
      have : s₁.pages ≠ [] := List.ne_nil_of_mem m₁
      simp [Run.rendering, this]
    have r₂ : s₂.rendering = true := by
      have : s₂.pages ≠ [] := List.ne_nil_of_mem m₂
      simp [Run.rendering, this]
    obtain ⟨d₁, p₁, st₁⟩ := key w₁ jobs₁ cats₁ acts₁ s₁ hj₁ h₁ r₁
    obtain ⟨d₂, p₂, st₂⟩ := key w₂ jobs₂ cats₂ acts₂ s₂ hj₂ h₂ r₂
    have e₁ := o₁.1 (c, l₁) m₁
    have e₂ := o₂.1 (c, l₂) m₂
    simp only at e₁ e₂
    rw [e₁, e₂, st₁, st₂, parsePhase_categories, parsePhase_categories]
    exact ((p₁.trans p₂.symm).map _).flatMap_right _

/-- The theorem `render_same_posts` at the two executions of
`render_order_differs`. -/
theorem render_same_posts_witness :
    ([⟨"p1.md", "", ["a"]⟩, ⟨"p2.md", "", ["a"]⟩] : List Post).Perm
      [⟨"p2.md", "", ["a"]⟩, ⟨"p1.md", "", ["a"]⟩] :=
  (render_same_posts (fun k => k) (fun _ => "")
    [⟨"./markdown/", "markdown"⟩, ⟨"markdown/a", "a"⟩, ⟨"markdown/a/p1.md", "p1.md"⟩,
      ⟨"markdown/a/p2.md", "p2.md"⟩]
    2 2 [⟨"p1.md", ["a"]⟩, ⟨"p2.md", ["a"]⟩] [⟨"p1.md", ["a"]⟩, ⟨"p2.md", ["a"]⟩] ["a"] ["a"]
    [.recv 0, .recv 1, .work 0, .work 1, .work 0, .work 1, .main, .main,
      .recv 0, .work 0, .work 0, .main, .main, .main]
    [.recv 0, .recv 1, .work 1, .work 0, .work 0, .work 1, .main, .main,
      .recv 0, .work 0, .work 0, .main, .main, .main]
    { pc := .finished, workers := [.idle, .idle], wg := 0,
      store := { posts := [⟨"p1.md", "", ["a"]⟩, ⟨"p2.md", "", ["a"]⟩],
                 categories := [("a", [⟨"p1.md", "", ["a"]⟩, ⟨"p2.md", "", ["a"]⟩])] },
      pages := [("a", [⟨"p1.md", "", ["a"]⟩, ⟨"p2.md", "", ["a"]⟩])],
      index := some [⟨"p1.md", "", ["a"]⟩, ⟨"p2.md", "", ["a"]⟩] }
    { pc := .finished, workers := [.idle, .idle], wg := 0,
      store := { posts := [⟨"p2.md", "", ["a"]⟩, ⟨"p1.md", "", ["a"]⟩],
                 categories := [("a", [⟨"p2.md", "", ["a"]⟩, ⟨"p1.md", "", ["a"]⟩])] },
      pages := [("a", [⟨"p2.md", "", ["a"]⟩, ⟨"p1.md", "", ["a"]⟩])],
      index := some [⟨"p2.md", "", ["a"]⟩, ⟨"p1.md", "", ["a"]⟩] }
    (by
      have e : pairsOf (getMdFiles [⟨"./markdown/", "markdown"⟩, ⟨"markdown/a", "a"⟩,
          ⟨"markdown/a/p1.md", "p1.md"⟩, ⟨"markdown/a/p2.md", "p2.md"⟩]).1
          = [⟨"p1.md", ["a"]⟩, ⟨"p2.md", ["a"]⟩] := by decide
      rw [e])
    (by
      have e : pairsOf (getMdFiles [⟨"./markdown/", "markdown"⟩, ⟨"markdown/a", "a"⟩,
          ⟨"markdown/a/p1.md", "p1.md"⟩, ⟨"markdown/a/p2.md", "p2.md"⟩]).1
          = [⟨"p1.md", ["a"]⟩, ⟨"p2.md", ["a"]⟩] := by decide
      rw [e])
    (by decide) (by decide)).1 _ _ rfl rfl


/-! ## The dispatcher and the workers: a run that completes -/

theorem exec_append (title body : String → String) (catOrder : List String) (s : Run)
    (xs ys : List Action) :
    exec title body catOrder s (xs ++ ys)
      = (exec title body catOrder s xs).bind (fun t => exec title body catOrder t ys) := by
  induction xs generalizing s with
  | nil => simp [exec]
  | cons a xs ih =>
    cases hstep : step title body catOrder s a with
    | none => simp [exec, hstep]
    | some t => simp [exec, hstep, ih]

theorem exec_parse_round (title body : String → String) (catOrder : List String)
    (f : Pair) (rest : List Pair) (ws : List Worker) (wg : Int) (store : Blog)
    (pages : List (String × List Post)) (index : Option (List Post)) (acts : List Action) :
    exec title body catOrder ⟨.sendFiles (f :: rest), .idle :: ws, wg, store, pages, index⟩
        (.recv 0 :: .work 0 :: .work 0 :: acts)
      = exec title body catOrder
          ⟨.sendFiles rest, .idle :: ws, wg - 1, parseJob title body store f, pages, index⟩
          acts := by
  simp [exec, step]

theorem exec_cat_round (title body : String → String) (catOrder : List String)
    (c : String) (rest : List String) (ws : List Worker) (wg : Int) (store : Blog)
    (pages : List (String × List Post)) (index : Option (List Post)) (acts : List Action) :
    exec title body catOrder ⟨.sendCats (c :: rest), .idle :: ws, wg, store, pages, index⟩
        (.recv 0 :: .work 0 :: .work 0 :: acts)
      = exec title body catOrder
          ⟨.sendCats rest, .idle :: ws, wg - 1, store,
            pages ++ [(c, mapGet store.categories c)], index⟩ acts := by
  simp [exec, step]

theorem exec_parse_jobs (title body : String → String) (catOrder : List String)
    (rest : List Pair) (ws : List Worker) (wg : Int) (store : Blog)
    (pages : List (String × List Post)) (index : Option (List Post)) :
    exec title body catOrder ⟨.sendFiles rest, .idle :: ws, wg, store, pages, index⟩
        (oneWorker rest.length)
      = some ⟨.sendFiles [], .idle :: ws, wg - rest.length,
          rest.foldl (parseJob title body) store, pages, index⟩ := by
  induction rest generalizing wg store with
  | nil => simp [exec, oneWorker]
  | cons f rest ih =>
    rw [List.length_cons, oneWorker, exec_parse_round, ih]
    simp only [List.foldl_cons, Nat.cast_add, Nat.cast_one, Option.some.injEq, Run.mk.injEq,
      true_and, and_true]
    omega

theorem exec_cat_jobs (title body : String → String) (catOrder : List String)
    (rest : List String) (ws : List Worker) (wg : Int) (store : Blog)
    (pages : List (String × List Post)) (index : Option (List Post)) :
    exec title body catOrder ⟨.sendCats rest, .idle :: ws, wg, store, pages, index⟩
        (oneWorker rest.length)
      = some ⟨.sendCats [], .idle :: ws, wg - rest.length, store,
          pages ++ rest.map (fun c => (c, mapGet store.categories c)), index⟩ := by
  induction rest generalizing wg pages with
  | nil => simp [exec, oneWorker]
  | cons c rest ih =>
    rw [List.length_cons, oneWorker, exec_cat_round, ih]
    simp only [List.map_cons, Nat.cast_add, Nat.cast_one, Option.some.injEq, Run.mk.injEq,
      true_and, and_true, List.append_assoc, List.singleton_append]
    omega

theorem exec_pass_wait (title body : String → String) (catOrder : List String)
    (ws : List Worker) (store : Blog) (pages : List (String × List Post))
    (index : Option (List Post)) (acts : List Action) :
    exec title body catOrder ⟨.sendFiles [], ws, 0, store, pages, index⟩
        (.main :: .main :: acts)
      = exec title body catOrder ⟨.sendCats catOrder, ws, catOrder.length, store, pages, index⟩
          acts := by
  simp [exec, step]

theorem exec_render_index (title body : String → String) (catOrder : List String)
    (ws : List Worker) (store : Blog) (pages : List (String × List Post)) :
    exec title body catOrder ⟨.sendCats [], ws, 0, store, pages, none⟩ [.main, .main, .main]
      = some ⟨.finished, ws, 0, store, pages, some store.posts⟩ := by
  simp [exec, step]

/-- With at least one worker the pipeline can run to its end: the schedule
`sequential` writes one page per category job and then the root index, all
from the store of phase 1; with no parse job the index is written empty. -/
theorem exec_completes (title body : String → String) (catOrder : List String) (n : Nat)
    (jobs : List Pair) :
    exec title body catOrder (initRun (n + 1) jobs) (sequential jobs.length catOrder.length)
      = some ⟨.finished, .idle :: List.replicate n .idle, 0, parsePhase title body jobs,
          catOrder.map (fun c => (c, mapGet (parsePhase title body jobs).categories c)),
          some (parsePhase title body jobs).posts⟩ := by
  rw [sequential, exec_append, initRun, List.replicate_succ, exec_parse_jobs, Option.bind,
    sub_self, exec_pass_wait, exec_append, exec_cat_jobs, Option.bind, sub_self,
    exec_render_index]
  rfl

end Underblog
